import Mathlib

/-!
# Mandelbrot fractal renderer (`main.cpp`): embedding and verified properties

The program reads seven parameters, computes an escape count per pixel, maps the
count to an RGB triple and writes an ASCII PPM image.

Modelling conventions.

* `double` values are elements of a type `K`.  The functions translated from the
  source only use the operations of `K` that the source uses (`+`, `-`, `*`, `/`,
  `<`, the literals and the conversion from `int`), so they can be run on any
  carrier that has them.  Statements about exact real arithmetic are proved for
  every linearly ordered field `K` (in particular for `ℝ` and `ℚ`).
* `int` values are elements of `Int`.  Where the source can leave the 32-bit
  range (the products `n*2`, `n*4`, `y*imageWidth + x`, `imageWidth*imageHeight`)
  the result is reduced by `wrapInt32` (two's complement wrap-around).
* `unsigned int` values are elements of `Nat`; the conversion from `int` is
  `toUInt32` (reduction modulo `2^32`).
* The memory reached through the pointer `pixels` is a function from slot
  indices to pixels; the allocated buffer is the slots `0 .. imageHeight*imageWidth - 1`.
-/

namespace Mandelbrot

/-! ## Machine integers -/

/-- The value an `int` computation takes in 32-bit two's complement: the
representative of `v` modulo `2^32` in the range `-2^31 .. 2^31 - 1`. -/
def wrapInt32 (v : Int) : Int := (v + 2147483648) % 4294967296 - 2147483648

/-- The conversion of an `int` to `unsigned int`: reduction modulo `2^32`. -/
def toUInt32 (v : Int) : Nat := (v % 4294967296).toNat

/-- The type `pixelData` (`unsigned int[3]`): the red, green and blue values. -/
abbrev pixelData : Type := Nat × Nat × Nat

/-! ## The escape-time evaluator `getMandelbrot` (main.cpp, lines 19-32) -/

section EscapeCode

variable {K : Type} [Add K] [Sub K] [Mul K] [OfNat K 2] [OfNat K 4] [LT K]
  [DecidableRel (fun (x y : K) => x < y)]

/-- The `while` loop of `getMandelbrot`, started in the state `(i, zReal, zImaginary)`:
one pass of the body per unfolding, the value of `i` at exit as result.  The loop
is total: the distance `maxIterations - i` decreases with every pass. -/
def getMandelbrot.loop (a b : K) (maxIterations : Int) (i : Int) (zReal zImaginary : K) : Int :=
  if h : i < maxIterations ∧ (zReal * zReal) + (zImaginary * zImaginary) < 4 then
    getMandelbrot.loop a b maxIterations (i + 1)
      ((zReal * zReal) - (zImaginary * zImaginary) + a) ((2 * zReal * zImaginary) + b)
  else i
termination_by (maxIterations - i).toNat
decreasing_by
  obtain ⟨hlt, -⟩ := h
  omega

/-- The function `getMandelbrot(a, b, maxIterations)`: the loop started from
`i = 0`, `zReal = 0.0`, `zImaginary = 0.0`. -/
def getMandelbrot [Zero K] (a b : K) (maxIterations : Int) : Int :=
  getMandelbrot.loop a b maxIterations 0 0 0

/-- The same `while` loop with two counters added to its state: `passes` counts
the passes through the body, `tests` the evaluations of the loop condition.  The
result is the value of `i` at exit with the two counters at exit. -/
def getMandelbrot.loopCounted (a b : K) (maxIterations : Int) (i : Int) (zReal zImaginary : K)
    (passes tests : Nat) : Int × Nat × Nat :=
  if h : i < maxIterations ∧ (zReal * zReal) + (zImaginary * zImaginary) < 4 then
    getMandelbrot.loopCounted a b maxIterations (i + 1)
      ((zReal * zReal) - (zImaginary * zImaginary) + a) ((2 * zReal * zImaginary) + b)
      (passes + 1) (tests + 1)
  else (i, passes, tests + 1)
termination_by (maxIterations - i).toNat
decreasing_by
  obtain ⟨hlt, -⟩ := h
  omega

end EscapeCode

/-! ## The coordinate mappers (main.cpp, lines 35-46) -/

section MapCode

variable {K : Type} [Add K] [Sub K] [Mul K] [Div K] [IntCast K]

/-- The function `mapToReal(x, imageWidth, minReal, maxReal)`; the `int`
arguments are converted to `double` where they meet one. -/
def mapToReal (x imageWidth : Int) (minReal maxReal : K) : K :=
  let range := maxReal - minReal
  (x : K) * (range / (imageWidth : K)) + minReal

/-- The function `mapToImaginary(y, imageHeight, minImaginary, maxImaginary)`. -/
def mapToImaginary (y imageHeight : Int) (minImaginary maxImaginary : K) : K :=
  let range := maxImaginary - minImaginary
  (y : K) * (range / (imageHeight : K)) + minImaginary

end MapCode

/-! ## The program `main` (main.cpp, lines 48-146) -/

/-- The seven values `main` reads from the parameter file, in the order read. -/
structure Params (K : Type) where
  imageWidth : Int
  imageHeight : Int
  maxIterations : Int
  minReal : K
  maxReal : K
  minImaginary : K
  maxImaginary : K

/-- The colour mapping of lines 120-127: `r = n % 256`, `g = (n*2) % 256`,
`b = (n*4) % 256` in `int` arithmetic (`%` truncates towards zero, the products
wrap), each stored into an `unsigned int`. -/
def pixelColour (n : Int) : pixelData :=
  (toUInt32 (Int.tmod n 256),
   toUInt32 (Int.tmod (wrapInt32 (n * 2)) 256),
   toUInt32 (Int.tmod (wrapInt32 (n * 4)) 256))

/-- The index expression `y*imageWidth + x` of lines 125-127, in `int` arithmetic. -/
def slotIndex (y imageWidth x : Int) : Int :=
  wrapInt32 (wrapInt32 (y * imageWidth) + x)

section RenderCode

variable {K : Type} [Zero K] [Add K] [Sub K] [Mul K] [Div K] [IntCast K]
  [OfNat K 2] [OfNat K 4] [LT K] [DecidableRel (fun (x y : K) => x < y)]

/-- The count `n` of lines 113-117 for the pixel in column `x` of row `y`. -/
def pixelCount (p : Params K) (y x : Int) : Int :=
  let cReal := mapToReal x p.imageWidth p.minReal p.maxReal
  let cImaginary := mapToImaginary y p.imageHeight p.minImaginary p.maxImaginary
  getMandelbrot cReal cImaginary p.maxIterations

/-- The body of the inner loop (lines 112-127) for the pixel in column `x` of
row `y`: the three stores go to the same slot and are one update here. -/
def renderPixel (p : Params K) (pixels : Int → pixelData) (y x : Int) : Int → pixelData :=
  Function.update pixels (slotIndex y p.imageWidth x) (pixelColour (pixelCount p y x))

/-- The performing of the loop body for a list of pixel positions `(y, x)`, one
after the other in the order of the list. -/
def renderInOrder (p : Params K) (order : List (Int × Int)) (pixels : Int → pixelData) :
    Int → pixelData :=
  order.foldl (fun px pos => renderPixel p px pos.1 pos.2) pixels

/-- The positions the nested `for` loops of lines 107-130 visit, in sequential
order: `y = 0 .. imageHeight - 1`, and for each `y`, `x = 0 .. imageWidth - 1`. -/
def loopPositions (imageWidth imageHeight : Int) : List (Int × Int) :=
  (List.range imageHeight.toNat).flatMap
    (fun (y : Nat) => (List.range imageWidth.toNat).map (fun (x : Nat) => ((y : Int), (x : Int))))

/-- The render loop of lines 107-130, run sequentially on the memory `pixels`. -/
def renderLoop (p : Params K) (pixels : Int → pixelData) : Int → pixelData :=
  renderInOrder p (loopPositions p.imageWidth p.imageHeight) pixels

end RenderCode

/-- The triples the output loop of lines 134-136 writes, in the order written:
`pixels[i]` for `i = 0, 1, ..` while `i <= imageWidth*imageHeight`. -/
def outputTriples (imageWidth imageHeight : Int) (pixels : Int → pixelData) : List pixelData :=
  (List.range (wrapInt32 (imageWidth * imageHeight) + 1).toNat).map (fun (i : Nat) => pixels (i : Int))

/-- The text one pass of the output loop writes: the three values in decimal,
each followed by a space. -/
def showTriple (t : pixelData) : String :=
  toString t.1 ++ " " ++ toString t.2.1 ++ " " ++ toString t.2.2 ++ " "

/-- The three header lines of lines 84-90. -/
def headerText (imageWidth imageHeight : Int) : String :=
  "P3" ++ "\n" ++ toString imageWidth ++ " " ++ toString imageHeight ++ "\n" ++ "255" ++ "\n"

/-- The two files the program touches: the parameter file (`none` when it
cannot be opened, otherwise the seven values the extractions yield) and the
image file (`none` when it does not exist, otherwise its content). -/
structure Files (K : Type) where
  parameters : Option (Params K)
  fractal : Option String

/-- The result of a run: the exit code, the files afterwards, the console text. -/
structure Outcome (K : Type) where
  exitCode : Int
  files : Files K
  console : String

section MainCode

variable {K : Type} [Zero K] [Add K] [Sub K] [Mul K] [Div K] [IntCast K]
  [OfNat K 2] [OfNat K 4] [LT K] [DecidableRel (fun (x y : K) => x < y)]

/-- The function `main`.  `heap` is the content of the memory at and around the
block `malloc` returns (the allocation is assumed to succeed); reads and writes
outside the block act on that memory. -/
def main (heap : Int → pixelData) (fs : Files K) : Outcome K :=
  match fs.parameters with
  | none => ⟨1, fs, "Could not open file!" ++ "\n"⟩
  | some p =>
    let pixels := renderLoop p heap
    let body := String.join ((outputTriples p.imageWidth p.imageHeight pixels).map showTriple)
    ⟨0, ⟨fs.parameters, some (headerText p.imageWidth p.imageHeight ++ body)⟩, ""⟩

end MainCode

/-! ## The orbit of the recurrence, as the specification words it -/

section EscapeSpec

variable {K : Type} [LinearOrderedField K]

/-- The orbit `z_0 = 0`, `z_(j+1) = z_j^2 + c` with `c = a + b i`, as a pair
(real part, imaginary part): `zReal' = zReal^2 - zImaginary^2 + cReal`,
`zImaginary' = 2 zReal zImaginary + cImaginary`. -/
def orbit (a b : K) : Nat → K × K
  | 0 => (0, 0)
  | k + 1 => ((orbit a b k).1 ^ 2 - (orbit a b k).2 ^ 2 + a, 2 * (orbit a b k).1 * (orbit a b k).2 + b)

/-- The squared magnitude `zReal^2 + zImaginary^2` of a point. -/
def magSq (z : K × K) : K := z.1 ^ 2 + z.2 ^ 2

/-- The escape time the specification describes: the least `k` below the cap
whose iterate `z_k` has squared magnitude at least 4, and the cap when there is
no such `k`. -/
def escapeTime (a b : K) (cap : Nat) : Nat :=
  if h : ∃ k, k < cap ∧ 4 ≤ magSq (orbit a b k) then Nat.find h else cap

end EscapeSpec

/-! ## Properties of the loop that hold for any arithmetic -/

section EscapeBounds

variable {K : Type} [Add K] [Sub K] [Mul K] [OfNat K 2] [OfNat K 4] [LT K]
  [DecidableRel (fun (x y : K) => x < y)]

/-- Once the counter has reached the cap the loop exits at once. -/
theorem getMandelbrot.loop_of_cap_le (a b : K) (m i : Int) (zr zi : K) (h : m ≤ i) :
    getMandelbrot.loop a b m i zr zi = i := by
  rw [getMandelbrot.loop]
  have hn : ¬ (i < m ∧ zr * zr + zi * zi < 4) := fun hc => absurd hc.1 (not_lt.mpr h)
  simp [hn]

/-- The loop never returns less than the counter it starts from, and never more
than the cap when it starts at or below the cap. -/
theorem getMandelbrot.loop_bounds (a b : K) (m : Int) :
    ∀ (d : Nat) (i : Int) (zr zi : K), (m - i).toNat = d →
      i ≤ getMandelbrot.loop a b m i zr zi ∧
        (i ≤ m → getMandelbrot.loop a b m i zr zi ≤ m) := by
  intro d
  induction d with
  | zero =>
    intro i zr zi hd
    have hmi : m ≤ i := by omega
    rw [getMandelbrot.loop_of_cap_le a b m i zr zi hmi]
    exact ⟨le_refl _, fun h => h⟩
  | succ d ih =>
    intro i zr zi hd
    rw [getMandelbrot.loop]
    by_cases hc : i < m ∧ zr * zr + zi * zi < 4
    · rw [dif_pos hc]
      have hlt := hc.1
      obtain ⟨h1, h2⟩ := ih (i + 1) (zr * zr - zi * zi + a) (2 * zr * zi + b) (by omega)
      exact ⟨by omega, fun _ => h2 (by omega)⟩
    · rw [dif_neg hc]
      exact ⟨le_refl _, fun h => h⟩

/-- The result of `getMandelbrot` lies between 0 and the larger of 0 and the cap. -/
theorem getMandelbrot_bounds [Zero K] (a b : K) (m : Int) :
    0 ≤ getMandelbrot a b m ∧ getMandelbrot a b m ≤ max m 0 := by
  unfold getMandelbrot
  by_cases hm : 0 ≤ m
  · obtain ⟨h1, h2⟩ := getMandelbrot.loop_bounds a b m (m - 0).toNat 0 0 0 rfl
    exact ⟨h1, le_trans (h2 hm) (le_max_left _ _)⟩
  · rw [getMandelbrot.loop_of_cap_le a b m 0 0 0 (by omega)]
    exact ⟨le_refl _, le_max_right _ _⟩

end EscapeBounds

/-! ## The loop follows the orbit (exact arithmetic) -/

section EscapeExact

variable {K : Type} [LinearOrderedField K]

/-- Started at counter `j` on the `j`-th iterate, the loop stops at the first
index `n ≥ j` that is the cap or whose iterate has squared magnitude at least 4. -/
theorem getMandelbrot.loop_orbit (a b : K) (cap : Nat) :
    ∀ (d j : Nat), j + d = cap →
      ∃ n : Nat, getMandelbrot.loop a b (cap : Int) (j : Int) (orbit a b j).1 (orbit a b j).2 = (n : Int) ∧
        j ≤ n ∧ n ≤ cap ∧ (∀ k, j ≤ k → k < n → magSq (orbit a b k) < 4) ∧
        (n < cap → 4 ≤ magSq (orbit a b n)) := by
  intro d
  induction d with
  | zero =>
    intro j hj
    refine ⟨j, ?_, le_refl _, by omega, fun k h1 h2 => absurd h2 (by omega), fun h => absurd h (by omega)⟩
    exact getMandelbrot.loop_of_cap_le a b _ _ _ _ (by omega)
  | succ d ih =>
    intro j hj
    rw [getMandelbrot.loop]
    have hmag : (orbit a b j).1 * (orbit a b j).1 + (orbit a b j).2 * (orbit a b j).2
        = magSq (orbit a b j) := by unfold magSq; ring
    by_cases hc : magSq (orbit a b j) < 4
    · have hcond : ((j : Int) < (cap : Int)) ∧
          (orbit a b j).1 * (orbit a b j).1 + (orbit a b j).2 * (orbit a b j).2 < 4 :=
        ⟨by omega, by rw [hmag]; exact hc⟩
      rw [dif_pos hcond]
      obtain ⟨n, hn, h1, h2, h3, h4⟩ := ih (j + 1) (by omega)
      refine ⟨n, ?_, by omega, h2, ?_, h4⟩
      · rw [← hn]
        have e1 : (orbit a b (j + 1)).1
            = (orbit a b j).1 * (orbit a b j).1 - (orbit a b j).2 * (orbit a b j).2 + a := by
          simp only [orbit]; ring
        have e2 : (orbit a b (j + 1)).2 = 2 * (orbit a b j).1 * (orbit a b j).2 + b := by
          simp only [orbit]
        rw [e1, e2]
        push_cast
        rfl
      · intro k hk1 hk2
        by_cases hkj : k = j
        · rw [hkj]; exact hc
        · exact h3 k (by omega) hk2
    · have hcond : ¬ (((j : Int) < (cap : Int)) ∧
          (orbit a b j).1 * (orbit a b j).1 + (orbit a b j).2 * (orbit a b j).2 < 4) := by
        rw [hmag]
        exact fun h => hc h.2
      rw [dif_neg hcond]
      exact ⟨j, rfl, le_refl _, by omega, fun k h1 h2 => absurd h2 (by omega),
        fun _ => not_lt.mp hc⟩

/-- The result of `getMandelbrot` for a cap `cap ≥ 0` is the index `n ≤ cap` at
which the orbit first has squared magnitude at least 4, or the cap. -/
theorem getMandelbrot_first_escape (a b : K) (cap : Nat) :
    ∃ n : Nat, getMandelbrot a b (cap : Int) = (n : Int) ∧ n ≤ cap ∧
      (∀ k, k < n → magSq (orbit a b k) < 4) ∧ (n < cap → 4 ≤ magSq (orbit a b n)) := by
  obtain ⟨n, hn, -, h2, h3, h4⟩ := getMandelbrot.loop_orbit a b cap cap 0 (by omega)
  refine ⟨n, ?_, h2, fun k hk => h3 k (Nat.zero_le k) hk, h4⟩
  unfold getMandelbrot
  simpa [orbit] using hn

/-- The specification's escape time is characterised by the same three facts. -/
theorem escapeTime_unique (a b : K) (cap n : Nat) (hle : n ≤ cap)
    (hbelow : ∀ k, k < n → magSq (orbit a b k) < 4)
    (hat : n < cap → 4 ≤ magSq (orbit a b n)) : escapeTime a b cap = n := by
  unfold escapeTime
  split
  · next h =>
    have hn : n < cap := by
      obtain ⟨k, hk, hesc⟩ := h
      by_contra hcon
      have : n = cap := by omega
      exact absurd hesc (not_le.mpr (hbelow k (by omega)))
    rw [Nat.find_eq_iff]
    exact ⟨⟨hn, hat hn⟩, fun k hk hcon => absurd hcon.2 (not_le.mpr (hbelow k hk))⟩
  · next h =>
    by_contra hcon
    exact h ⟨n, by omega, hat (by omega)⟩

end EscapeExact

/-! ## Consequences for particular points -/

section EscapeFixed

variable {K : Type} [Add K] [Sub K] [Mul K] [OfNat K 2] [OfNat K 4] [LT K]
  [DecidableRel (fun (x y : K) => x < y)]

/-- A state that passes the magnitude test and that the loop body maps to itself
keeps the loop running up to the cap. -/
theorem getMandelbrot.loop_fixed (a b : K) (m : Int) (zr zi : K)
    (htest : zr * zr + zi * zi < 4) (hre : zr * zr - zi * zi + a = zr)
    (him : 2 * zr * zi + b = zi) :
    ∀ (d : Nat) (i : Int), (m - i).toNat = d → i ≤ m →
      getMandelbrot.loop a b m i zr zi = m := by
  intro d
  induction d with
  | zero =>
    intro i hd hi
    rw [getMandelbrot.loop_of_cap_le a b m i zr zi (by omega)]
    omega
  | succ d ih =>
    intro i hd hi
    rw [getMandelbrot.loop, dif_pos ⟨by omega, htest⟩, hre, him]
    exact ih (i + 1) (by omega) (by omega)

end EscapeFixed

section EscapePoints

variable {K : Type} [LinearOrderedField K]

/-- At `c = 0` the loop runs to the cap, for every cap `m ≥ 0`. -/
theorem getMandelbrot_origin_of_nonneg (m : Int) (hm : 0 ≤ m) :
    getMandelbrot (0 : K) 0 m = m := by
  unfold getMandelbrot
  exact getMandelbrot.loop_fixed (0 : K) 0 m 0 0 (by norm_num) (by ring) (by ring)
    (m - 0).toNat 0 rfl hm

/-- Over the reals the orbit is the orbit of `z ↦ z^2 + c` in the complex
numbers, and `magSq` is the squared absolute value. -/
theorem orbit_complex (a b : ℝ) (k : Nat) :
    (⟨(orbit a b k).1, (orbit a b k).2⟩ : ℂ) = (fun z : ℂ => z ^ 2 + ⟨a, b⟩)^[k] 0 ∧
      magSq (orbit a b k) = Complex.normSq ⟨(orbit a b k).1, (orbit a b k).2⟩ := by
  refine ⟨?_, by simp [magSq, Complex.normSq_mk, sq]⟩
  induction k with
  | zero => rfl
  | succ k ih =>
    rw [Function.iterate_succ_apply', ← ih]
    apply Complex.ext
    · simp [orbit, sq]
    · simp [orbit, sq]; ring

/-- The first iterate is `c` itself. -/
theorem orbit_one (a b : K) : orbit a b 1 = (a, b) := by
  simp [orbit]

/-- A point outside the closed disc of radius 2 leaves after at most one pass. -/
theorem getMandelbrot_le_one_of_outside (a b : K) (m : Int) (h : 4 < a ^ 2 + b ^ 2) :
    getMandelbrot a b m ≤ 1 := by
  by_cases hm : 0 ≤ m
  · obtain ⟨n, hn, -, hbelow, -⟩ := getMandelbrot_first_escape a b m.toNat
    rw [Int.toNat_of_nonneg hm] at hn
    rw [hn]
    by_contra hcon
    have h1 := hbelow 1 (by omega)
    rw [orbit_one] at h1
    unfold magSq at h1
    exact absurd h (not_lt.mpr (le_trans (le_of_lt h1) (by norm_num)))
  · have hb := (getMandelbrot_bounds a b m).2
    rw [max_eq_right (by omega)] at hb
    omega

/-- The orbit of `c = -2` stays on the circle of radius 2 from the first iterate on. -/
theorem orbit_neg_two (k : Nat) :
    orbit (-2 : K) 0 (k + 2) = (2, 0) := by
  induction k with
  | zero => simp [orbit]; norm_num
  | succ k ih =>
    have hstep : orbit (-2 : K) 0 (k + 1 + 2)
        = ((orbit (-2 : K) 0 (k + 2)).1 ^ 2 - (orbit (-2 : K) 0 (k + 2)).2 ^ 2 + (-2),
           2 * (orbit (-2 : K) 0 (k + 2)).1 * (orbit (-2 : K) 0 (k + 2)).2 + 0) := rfl
    rw [hstep, ih]
    norm_num

/-- No iterate of the orbit of `c = -2` has squared magnitude above 4. -/
theorem magSq_orbit_neg_two_le (k : Nat) : magSq (orbit (-2 : K) 0 k) ≤ 4 := by
  rcases k with _ | _ | k
  · simp [orbit, magSq]
  · simp [orbit, magSq]; norm_num
  · rw [orbit_neg_two]; simp [magSq]; norm_num

/-- At `c = -2` the loop stops after one pass as soon as the cap allows one. -/
theorem getMandelbrot_neg_two (m : Int) (hm : 1 ≤ m) : getMandelbrot (-2 : K) 0 m = 1 := by
  obtain ⟨n, hn, hle, hbelow, hat⟩ := getMandelbrot_first_escape (-2 : K) 0 m.toNat
  rw [Int.toNat_of_nonneg (by omega)] at hn
  rw [hn]
  have h1 : ¬ (2 ≤ n) := by
    intro h2
    have := hbelow 1 (by omega)
    rw [orbit_one] at this
    unfold magSq at this
    norm_num at this
  have h0 : n ≠ 0 := by
    intro h0
    have := hat (by omega)
    rw [h0] at this
    simp [orbit, magSq] at this
    linarith
  have : n = 1 := by omega
  rw [this]
  rfl

end EscapePoints

/-! ## The coordinate mapper -/

section MapExact

variable {K : Type} [LinearOrderedField K]

/-- The mapper is the affine map `x ↦ min + x (max - min) / size`. -/
theorem mapToReal_eq (x w : Int) (minR maxR : K) :
    mapToReal x w minR maxR = minR + (x : K) * (maxR - minR) / (w : K) := by
  unfold mapToReal
  ring

/-- The two mappers are the same function. -/
theorem mapToImaginary_eq_mapToReal (y h : Int) (minI maxI : K) :
    mapToImaginary y h minI maxI = mapToReal y h minI maxI := rfl

end MapExact

/-! ## Machine integers and the colour mapping -/

/-- Inside the 32-bit range nothing wraps. -/
theorem wrapInt32_of_inRange (v : Int) (hlo : -2147483648 ≤ v) (hhi : v ≤ 2147483647) :
    wrapInt32 v = v := by
  unfold wrapInt32
  omega

/-- A wrapped value is a 32-bit value. -/
theorem wrapInt32_inRange (v : Int) :
    -2147483648 ≤ wrapInt32 v ∧ wrapInt32 v ≤ 2147483647 := by
  unfold wrapInt32
  omega

/-- While `n*4` fits an `int`, the three channels are `n mod 256`, `2n mod 256`
and `4n mod 256`. -/
theorem pixelColour_of_small (n : Int) (h0 : 0 ≤ n) (h1 : n ≤ 536870911) :
    pixelColour n = ((n % 256).toNat, (2 * n % 256).toNat, (4 * n % 256).toNat) := by
  unfold pixelColour
  rw [wrapInt32_of_inRange (n * 2) (by omega) (by omega),
    wrapInt32_of_inRange (n * 4) (by omega) (by omega),
    Int.tmod_eq_emod h0 (by norm_num), Int.tmod_eq_emod (by omega) (by norm_num),
    Int.tmod_eq_emod (by omega) (by norm_num)]
  unfold toUInt32
  refine Prod.ext ?_ (Prod.ext ?_ ?_)
  · show ((n % 256) % 4294967296).toNat = (n % 256).toNat
    omega
  · show ((n * 2 % 256) % 4294967296).toNat = (2 * n % 256).toNat
    omega
  · show ((n * 4 % 256) % 4294967296).toNat = (4 * n % 256).toNat
    omega

/-- The colour of the count `2^29 + 1`: the product `n*4` leaves the `int` range. -/
theorem pixelColour_overflow : pixelColour 536870913 = (1, 2, 4294967044) := by
  decide

/-! ## The render loop -/

/-- Inside an image whose slot count fits an `int`, the index expression is the
row-major index, without wrap-around. -/
theorem slotIndex_of_inRange (w h x y : Int) (hsize : w * h ≤ 2147483647)
    (hx0 : 0 ≤ x) (hx : x < w) (hy0 : 0 ≤ y) (hy : y < h) :
    slotIndex y w x = y * w + x ∧ 0 ≤ y * w + x ∧ y * w + x < w * h := by
  have hyw : 0 ≤ y * w := Int.mul_nonneg hy0 (by omega)
  have hle : y * w + w ≤ w * h := by
    have h1 : (y + 1) * w ≤ h * w := Int.mul_le_mul_of_nonneg_right (by omega) (by omega)
    have h2 : (y + 1) * w = y * w + w := by ring
    have h3 : h * w = w * h := by ring
    omega
  refine ⟨?_, by omega, by omega⟩
  unfold slotIndex
  rw [wrapInt32_of_inRange (y * w) (by omega) (by omega),
    wrapInt32_of_inRange (y * w + x) (by omega) (by omega)]

/-- The row-major index determines the position. -/
theorem rowMajor_injective (w x y x2 y2 : Int)
    (hx0 : 0 ≤ x) (hx : x < w) (hx20 : 0 ≤ x2) (hx2 : x2 < w)
    (heq : y * w + x = y2 * w + x2) : y = y2 ∧ x = x2 := by
  have hw : w ≠ 0 := by omega
  have hy : y = y2 := by
    have e1 : (x + y * w) / w = y := by
      rw [Int.add_mul_ediv_right _ _ hw, Int.ediv_eq_zero_of_lt hx0 hx]; omega
    have e2 : (x2 + y2 * w) / w = y2 := by
      rw [Int.add_mul_ediv_right _ _ hw, Int.ediv_eq_zero_of_lt hx20 hx2]; omega
    have e3 : x + y * w = x2 + y2 * w := by omega
    rw [e3] at e1
    omega
  refine ⟨hy, ?_⟩
  rw [hy] at heq
  omega

/-- The positions the loops visit are the positions of the image. -/
theorem mem_loopPositions (w h : Int) (pos : Int × Int) :
    pos ∈ loopPositions w h ↔ (0 ≤ pos.1 ∧ pos.1 < h) ∧ (0 ≤ pos.2 ∧ pos.2 < w) := by
  unfold loopPositions
  simp only [List.mem_flatMap, List.mem_map, List.mem_range]
  constructor
  · rintro ⟨y, hy, x, hx, rfl⟩
    show (0 ≤ (y : Int) ∧ (y : Int) < h) ∧ (0 ≤ (x : Int) ∧ (x : Int) < w)
    omega
  · rintro ⟨⟨hy0, hy⟩, hx0, hx⟩
    have hy1 : pos.1.toNat < h.toNat := by omega
    have hx1 : pos.2.toNat < w.toNat := by omega
    refine ⟨pos.1.toNat, hy1, pos.2.toNat, hx1, ?_⟩
    refine Prod.ext ?_ ?_
    · show ((pos.1.toNat : Nat) : Int) = pos.1
      omega
    · show ((pos.2.toNat : Nat) : Int) = pos.2
      omega

/-- The loops visit no position twice. -/
theorem loopPositions_nodup (w h : Int) : (loopPositions w h).Nodup := by
  unfold loopPositions
  rw [List.nodup_flatMap]
  constructor
  · intro y _
    have hinj : Function.Injective (fun x : Nat => ((y : Int), (x : Int))) := by
      intro x1 x2 hx
      simpa using hx
    exact (List.nodup_range _).map hinj
  · refine List.Nodup.pairwise_of_forall_ne (List.nodup_range _) ?_
    intro y1 _ y2 _ hne
    simp only [Function.onFun]
    rw [List.disjoint_left]
    intro pos h1 h2
    simp only [List.mem_map, List.mem_range] at h1 h2
    obtain ⟨x1, -, rfl⟩ := h1
    obtain ⟨x2, -, hx2⟩ := h2
    have := congrArg Prod.fst hx2
    simp only at this
    omega

section RenderFacts

variable {K : Type} [Zero K] [Add K] [Sub K] [Mul K] [Div K] [IntCast K]
  [OfNat K 2] [OfNat K 4] [LT K] [DecidableRel (fun (x y : K) => x < y)]

/-- Performing the body for a list of positions, unfolded at the first position. -/
theorem renderInOrder_cons (p : Params K) (pos : Int × Int) (order : List (Int × Int))
    (pixels : Int → pixelData) :
    renderInOrder p (pos :: order) pixels
      = renderInOrder p order (renderPixel p pixels pos.1 pos.2) := rfl

/-- A slot that no visited position maps to keeps its content. -/
theorem renderInOrder_other (p : Params K) (s : Int) :
    ∀ (order : List (Int × Int)) (pixels : Int → pixelData),
      (∀ pos ∈ order, slotIndex pos.1 p.imageWidth pos.2 ≠ s) →
      renderInOrder p order pixels s = pixels s := by
  intro order
  induction order with
  | nil => intro pixels _; rfl
  | cons hd tl ih =>
    intro pixels hs
    rw [renderInOrder_cons, ih _ (fun pos hpos => hs pos (List.mem_cons_of_mem _ hpos))]
    unfold renderPixel
    exact Function.update_noteq (Ne.symm (hs hd (List.mem_cons_self _ _))) _ _

/-- When the visited positions are pairwise different and map to pairwise
different slots, the slot of a visited position ends up with that position's colour. -/
theorem renderInOrder_slot (p : Params K) :
    ∀ (order : List (Int × Int)) (pixels : Int → pixelData), order.Nodup →
      (∀ pos ∈ order, ∀ pos2 ∈ order,
        slotIndex pos.1 p.imageWidth pos.2 = slotIndex pos2.1 p.imageWidth pos2.2 → pos = pos2) →
      ∀ pos ∈ order, renderInOrder p order pixels (slotIndex pos.1 p.imageWidth pos.2)
        = pixelColour (pixelCount p pos.1 pos.2) := by
  intro order
  induction order with
  | nil => intro pixels _ _ pos hpos; exact absurd hpos (List.not_mem_nil _)
  | cons hd tl ih =>
    intro pixels hnd hinj pos hpos
    rw [renderInOrder_cons]
    rw [List.nodup_cons] at hnd
    rcases List.mem_cons.mp hpos with hhd | htl
    · rw [hhd, renderInOrder_other p _ tl]
      · unfold renderPixel
        exact Function.update_same _ _ _
      · intro q hq heq
        have := hinj q (List.mem_cons_of_mem _ hq) hd (List.mem_cons_self _ _) heq
        exact hnd.1 (this ▸ hq)
    · exact ih _ hnd.2
        (fun q hq q2 hq2 => hinj q (List.mem_cons_of_mem _ hq) q2 (List.mem_cons_of_mem _ hq2))
        pos htl

/-- In an image whose slot count fits an `int`, after the render loop the
row-major slot of every pixel holds the colour of that pixel's count. -/
theorem renderLoop_slot (p : Params K) (heap : Int → pixelData)
    (hsize : p.imageWidth * p.imageHeight ≤ 2147483647) (x y : Int)
    (hx0 : 0 ≤ x) (hx : x < p.imageWidth) (hy0 : 0 ≤ y) (hy : y < p.imageHeight) :
    renderLoop p heap (y * p.imageWidth + x) = pixelColour (pixelCount p y x) := by
  have hmem : (y, x) ∈ loopPositions p.imageWidth p.imageHeight :=
    (mem_loopPositions _ _ _).mpr ⟨⟨hy0, hy⟩, hx0, hx⟩
  have key := renderInOrder_slot p (loopPositions p.imageWidth p.imageHeight) heap
    (loopPositions_nodup _ _) ?_ (y, x) hmem
  · rw [(slotIndex_of_inRange p.imageWidth p.imageHeight x y hsize hx0 hx hy0 hy).1] at key
    exact key
  · intro q hq q2 hq2 heq
    obtain ⟨⟨hq10, hq1⟩, hq20, hq2a⟩ := (mem_loopPositions _ _ _).mp hq
    obtain ⟨⟨hr10, hr1⟩, hr20, hr2⟩ := (mem_loopPositions _ _ _).mp hq2
    rw [(slotIndex_of_inRange p.imageWidth p.imageHeight q.2 q.1 hsize hq20 hq2a hq10 hq1).1,
      (slotIndex_of_inRange p.imageWidth p.imageHeight q2.2 q2.1 hsize hr20 hr2 hr10 hr1).1] at heq
    obtain ⟨h1, h2⟩ := rowMajor_injective p.imageWidth q.2 q.1 q2.2 q2.1 hq20 hq2a hr20 hr2 heq
    exact Prod.ext h1 h2

/-- When moreover the cap is at most `2^29 - 1`, so that `n*4` fits an `int`,
the slot holds `(n mod 256, 2n mod 256, 4n mod 256)` for the pixel's count `n`. -/
theorem renderLoop_slot_of_small (p : Params K) (heap : Int → pixelData)
    (hsize : p.imageWidth * p.imageHeight ≤ 2147483647) (hcap : p.maxIterations ≤ 536870911)
    (x y : Int) (hx0 : 0 ≤ x) (hx : x < p.imageWidth) (hy0 : 0 ≤ y) (hy : y < p.imageHeight) :
    renderLoop p heap (y * p.imageWidth + x)
      = ((pixelCount p y x % 256).toNat, (2 * pixelCount p y x % 256).toNat,
          (4 * pixelCount p y x % 256).toNat) := by
  rw [renderLoop_slot p heap hsize x y hx0 hx hy0 hy]
  have hb := getMandelbrot_bounds (mapToReal x p.imageWidth p.minReal p.maxReal)
    (mapToImaginary y p.imageHeight p.minImaginary p.maxImaginary) p.maxIterations
  have h0 : 0 ≤ pixelCount p y x := hb.1
  have h1 : pixelCount p y x ≤ max p.maxIterations 0 := hb.2
  exact pixelColour_of_small _ h0 (le_trans h1 (max_le hcap (by decide)))

/-- In an image whose slot count fits an `int`, the render loop leaves the
memory outside the slots `0 .. imageWidth*imageHeight - 1` as it was. -/
theorem renderLoop_outside (p : Params K) (heap : Int → pixelData)
    (hsize : p.imageWidth * p.imageHeight ≤ 2147483647) (s : Int)
    (hs : s < 0 ∨ p.imageWidth * p.imageHeight ≤ s) :
    renderLoop p heap s = heap s := by
  refine renderInOrder_other p s _ heap ?_
  intro q hq heq
  obtain ⟨⟨hq10, hq1⟩, hq20, hq2⟩ := (mem_loopPositions _ _ _).mp hq
  obtain ⟨h1, h2, h3⟩ :=
    slotIndex_of_inRange p.imageWidth p.imageHeight q.2 q.1 hsize hq20 hq2 hq10 hq1
  rw [h1] at heq
  omega

end RenderFacts

/-! ## The output loop -/

/-- The output loop makes one pass more than the wrapped product
`imageWidth*imageHeight` (none when that product is negative). -/
theorem outputTriples_length (w h : Int) (pixels : Int → pixelData) :
    (outputTriples w h pixels).length = (wrapInt32 (w * h) + 1).toNat := by
  simp [outputTriples]

/-- The pass number `i` of the output loop writes the slot `i`. -/
theorem outputTriples_getElem (w h : Int) (pixels : Int → pixelData) (i : Nat)
    (hi : i < (wrapInt32 (w * h) + 1).toNat) :
    (outputTriples w h pixels)[i]? = some (pixels (i : Int)) := by
  simp [outputTriples, List.getElem?_map, List.getElem?_range hi]

/-! ## The program -/

section MainFacts

variable {K : Type} [Zero K] [Add K] [Sub K] [Mul K] [Div K] [IntCast K]
  [OfNat K 2] [OfNat K 4] [LT K] [DecidableRel (fun (x y : K) => x < y)]

/-- When the parameter file cannot be opened, the run ends with code 1, the
message on the console and the files untouched. -/
theorem main_of_unopened (heap : Int → pixelData) (fs : Files K) (h : fs.parameters = none) :
    main heap fs = ⟨1, fs, "Could not open file!" ++ "\n"⟩ := by
  unfold main
  rw [h]

/-- When the parameter file opens, the run ends with code 0 and the image file
holds the header followed by the text of the triples of the output loop. -/
theorem main_of_opened (heap : Int → pixelData) (fs : Files K) (p : Params K)
    (h : fs.parameters = some p) :
    main heap fs = ⟨0, ⟨fs.parameters, some (headerText p.imageWidth p.imageHeight ++
      String.join ((outputTriples p.imageWidth p.imageHeight (renderLoop p heap)).map showTriple))⟩,
      ""⟩ := by
  unfold main
  rw [h]

end MainFacts

/-! ## Further properties of the loop -/

section EscapeSteps

variable {K : Type} [Add K] [Sub K] [Mul K] [OfNat K 2] [OfNat K 4] [LT K]
  [DecidableRel (fun (x y : K) => x < y)]

/-- One pass: below the cap and with the magnitude test passed, the loop
continues from the next state. -/
theorem getMandelbrot.loop_step (a b : K) (m i : Int) (zr zi : K) (hi : i < m)
    (htest : zr * zr + zi * zi < 4) :
    getMandelbrot.loop a b m i zr zi
      = getMandelbrot.loop a b m (i + 1) (zr * zr - zi * zi + a) (2 * zr * zi + b) := by
  rw [getMandelbrot.loop, dif_pos ⟨hi, htest⟩]

/-- When the magnitude test fails the loop exits with the current counter. -/
theorem getMandelbrot.loop_stop (a b : K) (m i : Int) (zr zi : K)
    (htest : ¬ (zr * zr + zi * zi < 4)) :
    getMandelbrot.loop a b m i zr zi = i := by
  rw [getMandelbrot.loop, dif_neg (fun hc => htest hc.2)]

/-- Started at or below a cap `m`, the loop with cap `m` returns the smaller of
`m` and what the loop with a larger cap `m2` returns. -/
theorem getMandelbrot.loop_min (a b : K) (m m2 : Int) (hmm : m ≤ m2) :
    ∀ (d : Nat) (i : Int) (zr zi : K), (m - i).toNat = d → i ≤ m →
      getMandelbrot.loop a b m i zr zi = min m (getMandelbrot.loop a b m2 i zr zi) := by
  intro d
  induction d with
  | zero =>
    intro i zr zi hd hi
    have him : i = m := by omega
    have hge := (getMandelbrot.loop_bounds a b m2 (m2 - i).toNat i zr zi rfl).1
    rw [getMandelbrot.loop_of_cap_le a b m i zr zi (by omega), min_eq_left (by omega)]
    exact him
  | succ d ih =>
    intro i zr zi hd hi
    by_cases htest : zr * zr + zi * zi < 4
    · rw [getMandelbrot.loop_step a b m i zr zi (by omega) htest,
        getMandelbrot.loop_step a b m2 i zr zi (by omega) htest]
      exact ih (i + 1) _ _ (by omega) (by omega)
    · rw [getMandelbrot.loop_stop a b m i zr zi htest,
        getMandelbrot.loop_stop a b m2 i zr zi htest, min_eq_right (by omega)]

/-- The counted loop returns what the loop returns, makes as many passes as the
counter advances, and evaluates the condition once more than that. -/
theorem getMandelbrot.loopCounted_eq (a b : K) (m : Int) :
    ∀ (d : Nat) (i : Int) (zr zi : K) (passes tests : Nat), (m - i).toNat = d →
      getMandelbrot.loopCounted a b m i zr zi passes tests
        = (getMandelbrot.loop a b m i zr zi,
           passes + (getMandelbrot.loop a b m i zr zi - i).toNat,
           tests + (getMandelbrot.loop a b m i zr zi - i).toNat + 1) := by
  intro d
  induction d with
  | zero =>
    intro i zr zi passes tests hd
    have hn : ¬ (i < m ∧ zr * zr + zi * zi < 4) := fun hc => by omega
    rw [getMandelbrot.loopCounted, dif_neg hn,
      getMandelbrot.loop_of_cap_le a b m i zr zi (by omega)]
    simp
  | succ d ih =>
    intro i zr zi passes tests hd
    by_cases htest : zr * zr + zi * zi < 4
    · have hge := (getMandelbrot.loop_bounds a b m d (i + 1) (zr * zr - zi * zi + a)
        (2 * zr * zi + b) (by omega)).1
      rw [getMandelbrot.loopCounted, dif_pos ⟨by omega, htest⟩,
        getMandelbrot.loop_step a b m i zr zi (by omega) htest,
        ih (i + 1) _ _ _ _ (by omega)]
      refine Prod.ext rfl (Prod.ext ?_ ?_)
      · show passes + 1 + _ = passes + _
        omega
      · show tests + 1 + _ + 1 = tests + _ + 1
        omega
    · rw [getMandelbrot.loopCounted, dif_neg (fun hc => htest hc.2),
        getMandelbrot.loop_stop a b m i zr zi htest]
      simp

/-- With a starting state that passes the magnitude test, the result is 0
exactly when the cap is not positive. -/
theorem getMandelbrot_eq_zero_iff_of_test [Zero K] (a b : K) (m : Int)
    (htest : (0 : K) * 0 + 0 * 0 < 4) : getMandelbrot a b m = 0 ↔ m ≤ 0 := by
  unfold getMandelbrot
  constructor
  · intro h0
    by_contra hm
    rw [getMandelbrot.loop_step a b m 0 0 0 (by omega) htest] at h0
    have hge := (getMandelbrot.loop_bounds a b m (m - (0 + 1)).toNat (0 + 1)
      ((0 : K) * 0 - 0 * 0 + a) (2 * 0 * 0 + b) rfl).1
    omega
  · intro hm
    exact getMandelbrot.loop_of_cap_le a b m 0 0 0 hm

end EscapeSteps

section EscapeSymmetry

variable {K : Type} [LinearOrderedField K]

/-- Mirroring `c` and the state in the real axis does not change the loop. -/
theorem getMandelbrot.loop_conj (a b : K) (m : Int) :
    ∀ (d : Nat) (i : Int) (zr zi : K), (m - i).toNat = d →
      getMandelbrot.loop a (-b) m i zr (-zi) = getMandelbrot.loop a b m i zr zi := by
  intro d
  induction d with
  | zero =>
    intro i zr zi hd
    rw [getMandelbrot.loop_of_cap_le a (-b) m i zr (-zi) (by omega),
      getMandelbrot.loop_of_cap_le a b m i zr zi (by omega)]
  | succ d ih =>
    intro i zr zi hd
    have hmag : zr * zr + -zi * -zi = zr * zr + zi * zi := by ring
    by_cases htest : zr * zr + zi * zi < 4
    · have hre : zr * zr - -zi * -zi + a = zr * zr - zi * zi + a := by ring
      have him : 2 * zr * -zi + -b = -(2 * zr * zi + b) := by ring
      rw [getMandelbrot.loop_step a (-b) m i zr (-zi) (by omega) (by rw [hmag]; exact htest),
        getMandelbrot.loop_step a b m i zr zi (by omega) htest, hre, him]
      exact ih (i + 1) _ _ (by omega)
    · rw [getMandelbrot.loop_stop a (-b) m i zr (-zi) (by rw [hmag]; exact htest),
        getMandelbrot.loop_stop a b m i zr zi htest]

/-- The count is the same at `c` and at its mirror image in the real axis. -/
theorem getMandelbrot_conj (a b : K) (m : Int) :
    getMandelbrot a (-b) m = getMandelbrot a b m := by
  unfold getMandelbrot
  have h := getMandelbrot.loop_conj a b m (m - 0).toNat 0 0 0 rfl
  rw [neg_zero] at h
  exact h

end EscapeSymmetry

section MapOrder

variable {K : Type} [LinearOrderedField K]

/-- With a positive size and `lo < hi` the mapper is strictly increasing in the index. -/
theorem mapToReal_strictMono (size : Int) (lo hi : K) (hsize : 0 < size) (hlt : lo < hi)
    (i j : Int) (hij : i < j) : mapToReal i size lo hi < mapToReal j size lo hi := by
  have hs : (0 : K) < (size : K) := by exact_mod_cast hsize
  have hstep : 0 < (hi - lo) / (size : K) := div_pos (sub_pos.mpr hlt) hs
  have hc : (i : K) < (j : K) := by exact_mod_cast hij
  unfold mapToReal
  exact add_lt_add_right (mul_lt_mul_of_pos_right hc hstep) lo

/-- With a positive size and `lo < hi` an index in `[0, size)` is mapped into `[lo, hi)`. -/
theorem mapToReal_inside (size : Int) (lo hi : K) (hsize : 0 < size) (hlt : lo < hi)
    (index : Int) (h0 : 0 ≤ index) (h1 : index < size) :
    lo ≤ mapToReal index size lo hi ∧ mapToReal index size lo hi < hi := by
  have hs : (0 : K) < (size : K) := by exact_mod_cast hsize
  have hlo : mapToReal 0 size lo hi = lo := by simp [mapToReal]
  have hhi : mapToReal size size lo hi = hi := by
    rw [mapToReal_eq]
    field_simp
  constructor
  · rcases eq_or_lt_of_le h0 with h | h
    · rw [← h, hlo]
    · exact le_of_lt (by
        have := mapToReal_strictMono size lo hi hsize hlt 0 index h
        rwa [hlo] at this)
  · have := mapToReal_strictMono size lo hi hsize hlt index size h1
    rwa [hhi] at this

end MapOrder

/-! ## The slots of the render loop and the order of the stores -/

/-- In an image whose slot count fits an `int`, every slot of the buffer is the
slot of a pixel position. -/
theorem slotIndex_surjective (w h : Int) (hw : 0 < w) (hsize : w * h ≤ 2147483647)
    (s : Int) (hs0 : 0 ≤ s) (hs : s < w * h) :
    ∃ pos ∈ loopPositions w h, slotIndex pos.1 w pos.2 = s := by
  have hx0 : 0 ≤ s % w := Int.emod_nonneg s (by omega)
  have hx : s % w < w := Int.emod_lt_of_pos s hw
  have hy0 : 0 ≤ s / w := Int.ediv_nonneg hs0 (by omega)
  have hy : s / w < h := Int.ediv_lt_of_lt_mul hw (by rw [Int.mul_comm]; exact hs)
  refine ⟨(s / w, s % w), (mem_loopPositions w h _).mpr ⟨⟨hy0, hy⟩, hx0, hx⟩, ?_⟩
  rw [(slotIndex_of_inRange w h (s % w) (s / w) hsize hx0 hx hy0 hy).1]
  have h1 := Int.ediv_add_emod s w
  have h2 : s / w * w = w * (s / w) := Int.mul_comm _ _
  show s / w * w + s % w = s
  omega

/-- In an image whose slot count fits an `int`, different visited positions have
different slots. -/
theorem slotIndex_injOn (w h : Int) (hsize : w * h ≤ 2147483647) :
    ∀ pos ∈ loopPositions w h, ∀ pos2 ∈ loopPositions w h,
      slotIndex pos.1 w pos.2 = slotIndex pos2.1 w pos2.2 → pos = pos2 := by
  intro q hq q2 hq2 heq
  obtain ⟨⟨hq10, hq1⟩, hq20, hq2a⟩ := (mem_loopPositions _ _ _).mp hq
  obtain ⟨⟨hr10, hr1⟩, hr20, hr2⟩ := (mem_loopPositions _ _ _).mp hq2
  rw [(slotIndex_of_inRange w h q.2 q.1 hsize hq20 hq2a hq10 hq1).1,
    (slotIndex_of_inRange w h q2.2 q2.1 hsize hr20 hr2 hr10 hr1).1] at heq
  obtain ⟨h1, h2⟩ := rowMajor_injective w q.2 q.1 q2.2 q2.1 hq20 hq2a hr20 hr2 heq
  exact Prod.ext h1 h2

/-- In an image whose slot count fits an `int`, the index expression is a
bijection from the visited positions onto the slots `0 .. w*h - 1`: every store
is inside the buffer, no two positions share a slot, and every slot of the
buffer is stored to exactly once. -/
theorem slotIndex_bijection (w h : Int) (hw : 0 < w) (hsize : w * h ≤ 2147483647) :
    (∀ pos ∈ loopPositions w h,
        0 ≤ slotIndex pos.1 w pos.2 ∧ slotIndex pos.1 w pos.2 < w * h) ∧
      (∀ pos ∈ loopPositions w h, ∀ pos2 ∈ loopPositions w h,
        slotIndex pos.1 w pos.2 = slotIndex pos2.1 w pos2.2 → pos = pos2) ∧
      (∀ s : Int, 0 ≤ s → s < w * h →
        ((loopPositions w h).map (fun pos => slotIndex pos.1 w pos.2)).count s = 1) := by
  refine ⟨?_, slotIndex_injOn w h hsize, ?_⟩
  · intro q hq
    obtain ⟨⟨hq10, hq1⟩, hq20, hq2⟩ := (mem_loopPositions _ _ _).mp hq
    obtain ⟨h1, h2, h3⟩ := slotIndex_of_inRange w h q.2 q.1 hsize hq20 hq2 hq10 hq1
    rw [h1]
    exact ⟨h2, h3⟩
  · intro s hs0 hs
    refine List.count_eq_one_of_mem ?_ ?_
    · exact List.Nodup.map_on (slotIndex_injOn w h hsize) (loopPositions_nodup w h)
    · obtain ⟨pos, hpos, hslot⟩ := slotIndex_surjective w h hw hsize s hs0 hs
      exact List.mem_map.mpr ⟨pos, hpos, hslot⟩

section OrderFacts

variable {K : Type} [Zero K] [Add K] [Sub K] [Mul K] [Div K] [IntCast K]
  [OfNat K 2] [OfNat K 4] [LT K] [DecidableRel (fun (x y : K) => x < y)]

/-- The last store to a slot decides its content: after the stores of
`before ++ pos :: after`, where no position of `after` has the slot of `pos`,
that slot holds the colour of `pos`. -/
theorem renderInOrder_last_store (p : Params K) (before after : List (Int × Int))
    (pos : Int × Int) (pixels : Int → pixelData)
    (hafter : ∀ q ∈ after, slotIndex q.1 p.imageWidth q.2 ≠ slotIndex pos.1 p.imageWidth pos.2) :
    renderInOrder p (before ++ pos :: after) pixels (slotIndex pos.1 p.imageWidth pos.2)
      = pixelColour (pixelCount p pos.1 pos.2) := by
  have hsplit : renderInOrder p (before ++ pos :: after) pixels
      = renderInOrder p after (renderPixel p (renderInOrder p before pixels) pos.1 pos.2) := by
    unfold renderInOrder
    rw [List.foldl_append, List.foldl_cons]
  rw [hsplit, renderInOrder_other p _ after _ hafter]
  unfold renderPixel
  exact Function.update_same _ _ _

/-- Two orders of the same pairwise different positions, whose slots are
pairwise different, leave the same memory. -/
theorem renderInOrder_perm (p : Params K) (order order2 : List (Int × Int))
    (pixels : Int → pixelData) (hperm : order.Perm order2) (hnd : order2.Nodup)
    (hinj : ∀ pos ∈ order2, ∀ pos2 ∈ order2,
      slotIndex pos.1 p.imageWidth pos.2 = slotIndex pos2.1 p.imageWidth pos2.2 → pos = pos2) :
    renderInOrder p order pixels = renderInOrder p order2 pixels := by
  funext s
  by_cases hs : ∃ pos ∈ order2, slotIndex pos.1 p.imageWidth pos.2 = s
  · obtain ⟨pos, hpos, rfl⟩ := hs
    rw [renderInOrder_slot p order2 pixels hnd hinj pos hpos,
      renderInOrder_slot p order pixels (hperm.nodup_iff.mpr hnd)
        (fun q hq q2 hq2 => hinj q (hperm.mem_iff.mp hq) q2 (hperm.mem_iff.mp hq2))
        pos (hperm.mem_iff.mpr hpos)]
  · rw [renderInOrder_other p s order2 pixels (fun q hq heq => hs ⟨q, hq, heq⟩),
      renderInOrder_other p s order pixels
        (fun q hq heq => hs ⟨q, hperm.mem_iff.mp hq, heq⟩)]

/-- In an image whose slot count fits an `int`, performing the stores of the
render loop in any order of the pixel positions leaves the memory the
sequential loop leaves. -/
theorem renderInOrder_eq_renderLoop (p : Params K) (order : List (Int × Int))
    (pixels : Int → pixelData) (hsize : p.imageWidth * p.imageHeight ≤ 2147483647)
    (hperm : order.Perm (loopPositions p.imageWidth p.imageHeight)) :
    renderInOrder p order pixels = renderLoop p pixels :=
  renderInOrder_perm p order _ pixels hperm (loopPositions_nodup _ _)
    (slotIndex_injOn p.imageWidth p.imageHeight hsize)

end OrderFacts

/-- The positions of an image with `n + 1` rows of `k + 1` pixels: those of the
first `n` rows, then the first position of row `n`, then the rest of row `n`. -/
theorem loopPositions_last_row (k n : Nat) :
    loopPositions ((k + 1 : Nat) : Int) ((n + 1 : Nat) : Int)
      = loopPositions ((k + 1 : Nat) : Int) (n : Int)
        ++ ((n : Int), (0 : Int))
          :: (List.range k).map (fun (x : Nat) => ((n : Int), ((x + 1 : Nat) : Int))) := by
  unfold loopPositions
  rw [Int.toNat_natCast, Int.toNat_natCast, Int.toNat_natCast, List.range_succ,
    List.flatMap_append, List.flatMap_singleton, List.range_succ_eq_map, List.map_cons,
    List.map_map]
  rfl

/-! ## The claims -/

section Claims

variable {K : Type} [LinearOrderedField K]

/-- C1: in exact arithmetic, for every `c = (a, b)` and every cap
`maxIterations >= 0`, `getMandelbrot` returns the least `k` below the cap whose
iterate `z_k` has squared magnitude at least 4, and the cap when there is none. -/
theorem getMandelbrot_eq_escapeTime (a b : K) (maxIterations : Int) (h : 0 ≤ maxIterations) :
    getMandelbrot a b maxIterations = (escapeTime a b maxIterations.toNat : Int) := by
  obtain ⟨n, hn, hle, hbelow, hat⟩ := getMandelbrot_first_escape a b maxIterations.toNat
  rw [Int.toNat_of_nonneg h] at hn
  rw [hn, escapeTime_unique a b maxIterations.toNat n hle hbelow hat]

/-- C1, at the point `c = 3` with cap 10. -/
theorem getMandelbrot_eq_escapeTime_witness :
    (0 : Int) ≤ 10 ∧ getMandelbrot (3 : ℚ) 0 10 = (escapeTime (3 : ℚ) 0 (Int.toNat 10) : Int) :=
  ⟨by decide, getMandelbrot_eq_escapeTime 3 0 10 (by decide)⟩

/-- C2 fails for a negative cap: with `maxIterations = -1` the result is 0, which
is not at most the cap. -/
theorem getMandelbrot_range_counterexample :
    ¬ (0 ≤ getMandelbrot (0 : ℚ) 0 (-1) ∧ getMandelbrot (0 : ℚ) 0 (-1) ≤ -1) := by
  intro hcon
  have h0 := (getMandelbrot_bounds (0 : ℚ) 0 (-1)).1
  omega

/-- C2, amended: for every point and every cap, whatever the arithmetic, the
result `n` satisfies `0 <= n <= max(maxIterations, 0)`: it lies in
`[0, maxIterations]` when the cap is not negative and is 0 when it is. -/
theorem getMandelbrot_range {D : Type} [Zero D] [Add D] [Sub D] [Mul D] [OfNat D 2] [OfNat D 4]
    [LT D] [DecidableRel (fun (x y : D) => x < y)] (cReal cImaginary : D) (maxIterations : Int) :
    0 ≤ getMandelbrot cReal cImaginary maxIterations ∧
      getMandelbrot cReal cImaginary maxIterations ≤ max maxIterations 0 :=
  getMandelbrot_bounds cReal cImaginary maxIterations

/-- C3 fails on the parameters `1 1 536870913` / `0 1 0 1`: the only pixel has
the count `n = 536870913`, and the render loop leaves `(1, 2, 4294967044)` in
slot 0, where `(n mod 256, 2n mod 256, 4n mod 256)` is `(1, 2, 4)`. -/
theorem renderLoop_slot_overflow (heap : Int → pixelData) :
    pixelCount (⟨1, 1, 536870913, 0, 1, 0, 1⟩ : Params ℚ) 0 0 = 536870913 ∧
      renderLoop (⟨1, 1, 536870913, 0, 1, 0, 1⟩ : Params ℚ) heap (0 * 1 + 0)
        = (1, 2, 4294967044) ∧
      (((536870913 : Int) % 256).toNat, ((2 * 536870913 : Int) % 256).toNat,
        ((4 * 536870913 : Int) % 256).toNat) = (1, 2, 4) := by
  have hcount : pixelCount (⟨1, 1, 536870913, 0, 1, 0, 1⟩ : Params ℚ) 0 0 = 536870913 := by
    have hc : mapToReal 0 1 (0 : ℚ) 1 = 0 := by norm_num [mapToReal]
    have hd : mapToImaginary 0 1 (0 : ℚ) 1 = 0 := by norm_num [mapToImaginary]
    show getMandelbrot (mapToReal 0 1 (0 : ℚ) 1) (mapToImaginary 0 1 (0 : ℚ) 1) 536870913
      = 536870913
    rw [hc, hd]
    exact getMandelbrot_origin_of_nonneg 536870913 (by norm_num)
  refine ⟨hcount, ?_, by decide⟩
  have hslot := renderLoop_slot (⟨1, 1, 536870913, 0, 1, 0, 1⟩ : Params ℚ) heap
    (by decide) 0 0 (by decide) (by decide) (by decide) (by decide)
  rw [hslot, hcount]
  exact pixelColour_overflow

/-- C4 fails at `n = 536870913`, a count `getMandelbrot` returns for the cap
`maxIterations = 536870913`: the product `n*4` leaves the `int` range and the
blue value stored is 4294967044, neither at most 255 nor `4n mod 256 = 4`. -/
theorem pixelColour_blue_overflow :
    getMandelbrot (0 : ℚ) 0 536870913 = 536870913 ∧
      pixelColour 536870913 = (1, 2, 4294967044) ∧
      ¬ ((pixelColour 536870913).2.2 ≤ 255) ∧
      ((4 * 536870913 : Int) % 256).toNat = 4 :=
  ⟨getMandelbrot_origin_of_nonneg 536870913 (by norm_num), by decide, by decide, by decide⟩

/-- C5 fails on the parameters `4 2 10` / `-2.0 1.0 -1.0 1.0`: the output loop
writes 9 triples, the ninth being slot 8, one past the 8 slots of the buffer. -/
theorem outputTriples_one_too_many (pixels : Int → pixelData) :
    (outputTriples 4 2 pixels).length = 9 ∧
      (outputTriples 4 2 pixels)[8]? = some (pixels 8) := by
  have hlen : (wrapInt32 (4 * 2) + 1).toNat = 9 := by decide
  refine ⟨by rw [outputTriples_length, hlen], ?_⟩
  exact outputTriples_getElem 4 2 pixels 8 (by rw [hlen]; decide)

/-- C6: in exact arithmetic, for every integer `w > 0` and all `minR`, `maxR`,
`mapToReal(0, w, minR, maxR) = minR` and `mapToReal(w, w, minR, maxR) = maxR`. -/
theorem mapToReal_endpoints (w : Int) (minR maxR : K) (hw : 0 < w) :
    mapToReal 0 w minR maxR = minR ∧ mapToReal w w minR maxR = maxR := by
  have hw0 : (w : K) ≠ 0 := by
    have : (0 : K) < (w : K) := by exact_mod_cast hw
    exact ne_of_gt this
  constructor
  · simp [mapToReal]
  · rw [mapToReal_eq]
    field_simp

/-- C6, at `w = 4` on the viewport `[-2, 1]`. -/
theorem mapToReal_endpoints_witness :
    (0 : Int) < 4 ∧ mapToReal 0 4 (-2 : ℚ) 1 = -2 ∧ mapToReal 4 4 (-2 : ℚ) 1 = 1 :=
  ⟨by decide, mapToReal_endpoints 4 (-2 : ℚ) 1 (by decide)⟩

/-- C7: for every positive `maxIterations`, `getMandelbrot(0, 0, maxIterations)`
returns exactly `maxIterations`. -/
theorem getMandelbrot_origin (maxIterations : Int) (h : 0 < maxIterations) :
    getMandelbrot (0 : K) 0 maxIterations = maxIterations :=
  getMandelbrot_origin_of_nonneg maxIterations (le_of_lt h)

/-- C7, at the cap 10. -/
theorem getMandelbrot_origin_witness :
    (0 : Int) < 10 ∧ getMandelbrot (0 : ℚ) 0 10 = 10 :=
  ⟨by decide, getMandelbrot_origin 10 (by decide)⟩

/-- C8: in exact arithmetic, for every point `c = (a, b)` with `a^2 + b^2 > 4`
and every cap, `getMandelbrot(a, b, maxIterations) <= 2`. -/
theorem getMandelbrot_outside_le_two (a b : K) (maxIterations : Int) (h : 4 < a ^ 2 + b ^ 2) :
    getMandelbrot a b maxIterations ≤ 2 :=
  le_trans (getMandelbrot_le_one_of_outside a b maxIterations h) (by decide)

/-- C8, at the point `c = 3 + 0i` with cap 10. -/
theorem getMandelbrot_outside_le_two_witness :
    (4 : ℚ) < 3 ^ 2 + 0 ^ 2 ∧ getMandelbrot (3 : ℚ) 0 10 ≤ 2 :=
  ⟨by norm_num, getMandelbrot_outside_le_two 3 0 10 (by norm_num)⟩

/-- C9 fails at `c = -2` with cap 10: no iterate has squared magnitude above 4,
yet the result is not the cap (it is 1: the first iterate has squared magnitude
exactly 4, which ends the loop). -/
theorem getMandelbrot_strict_counterexample :
    ¬ ((∀ k : Nat, (k : Int) < 10 → ¬ (4 < magSq (orbit (-2 : ℚ) 0 k))) →
        getMandelbrot (-2 : ℚ) 0 10 = 10) := by
  intro hcon
  have h10 := hcon (fun k _ => not_lt.mpr (magSq_orbit_neg_two_le k))
  rw [getMandelbrot_neg_two 10 (by decide)] at h10
  exact absurd h10 (by decide)

/-- C9, amended: in exact arithmetic, for every `c` and every cap
`maxIterations >= 0`: if no iterate `z_k` with `k < maxIterations` has squared
magnitude at least 4 (reaches or exceeds the threshold), `getMandelbrot` returns
the cap; otherwise it returns the index of the first iterate that does, the
number of passes made before it. -/
theorem getMandelbrot_escape_reached (a b : K) (maxIterations : Int) (h : 0 ≤ maxIterations) :
    ((∀ k : Nat, (k : Int) < maxIterations → magSq (orbit a b k) < 4) →
        getMandelbrot a b maxIterations = maxIterations) ∧
      (∀ n : Nat, (n : Int) < maxIterations → 4 ≤ magSq (orbit a b n) →
        (∀ k : Nat, k < n → magSq (orbit a b k) < 4) →
        getMandelbrot a b maxIterations = (n : Int)) := by
  obtain ⟨r, hr, hle, hbelow, hat⟩ := getMandelbrot_first_escape a b maxIterations.toNat
  rw [Int.toNat_of_nonneg h] at hr
  constructor
  · intro hnone
    by_contra hcon
    have hlt : r < maxIterations.toNat := by omega
    exact absurd (hat hlt) (not_le.mpr (hnone r (by omega)))
  · intro n hn hesc hfirst
    rw [hr]
    have h1 : ¬ (n < r) := fun hlt => absurd hesc (not_le.mpr (hbelow n hlt))
    have h2 : ¬ (r < n) := fun hlt => absurd (hat (by omega)) (not_le.mpr (hfirst r hlt))
    have : r = n := by omega
    rw [this]

/-- C9 amended, at the point `c = -2` with cap 10. -/
theorem getMandelbrot_escape_reached_witness :
    (0 : Int) ≤ 10 ∧
      (((∀ k : Nat, (k : Int) < 10 → magSq (orbit (-2 : ℚ) 0 k) < 4) →
        getMandelbrot (-2 : ℚ) 0 10 = 10) ∧
      (∀ n : Nat, (n : Int) < 10 → 4 ≤ magSq (orbit (-2 : ℚ) 0 n) →
        (∀ k : Nat, k < n → magSq (orbit (-2 : ℚ) 0 k) < 4) →
        getMandelbrot (-2 : ℚ) 0 10 = (n : Int))) :=
  ⟨by decide, getMandelbrot_escape_reached (-2) 0 10 (by decide)⟩

/-- C10: `main` returns 1 exactly when the parameter file cannot be opened, in
which case both files are left as they were (the image file is neither created
nor modified); when the parameter file opens, `main` returns 0. -/
theorem main_exitCode {D : Type} [Zero D] [Add D] [Sub D] [Mul D] [Div D] [IntCast D]
    [OfNat D 2] [OfNat D 4] [LT D] [DecidableRel (fun (x y : D) => x < y)]
    (heap : Int → pixelData) (fs : Files D) :
    ((main heap fs).exitCode = 1 ↔ fs.parameters = none) ∧
      (fs.parameters = none → (main heap fs).files = fs) ∧
      (fs.parameters ≠ none → (main heap fs).exitCode = 0) := by
  cases hp : fs.parameters with
  | none =>
    rw [main_of_unopened heap fs hp]
    exact ⟨⟨fun _ => rfl, fun _ => rfl⟩, fun _ => rfl, fun hne => absurd rfl hne⟩
  | some p =>
    rw [main_of_opened heap fs p hp]
    refine ⟨⟨fun h1 => ?_, fun h1 => ?_⟩, fun h1 => ?_, fun _ => rfl⟩
    · have h2 : (0 : Int) = 1 := h1
      exact absurd h2 (by decide)
    · exact absurd h1 (by simp)
    · exact absurd h1 (by simp)

/-- C14: for every point and every cap `maxIterations >= 0`, whatever the
arithmetic, the loop of `getMandelbrot` terminates: the counted loop returns the
result of `getMandelbrot` after `passes` passes through the body and `tests`
evaluations of the loop condition, with `passes <= maxIterations` and
`tests <= maxIterations + 1` (the counter `i` starts at 0, goes up by 1 per
pass, so `passes` is the result, and the condition is evaluated once more). -/
theorem getMandelbrot_loop_terminates {D : Type} [Zero D] [Add D] [Sub D] [Mul D] [OfNat D 2]
    [OfNat D 4] [LT D] [DecidableRel (fun (x y : D) => x < y)]
    (cReal cImaginary : D) (maxIterations : Int) (h : 0 ≤ maxIterations) :
    ∃ passes tests : Nat,
      getMandelbrot.loopCounted cReal cImaginary maxIterations 0 0 0 0 0
        = (getMandelbrot cReal cImaginary maxIterations, passes, tests) ∧
      (passes : Int) = getMandelbrot cReal cImaginary maxIterations ∧
      tests = passes + 1 ∧
      (passes : Int) ≤ maxIterations ∧ (tests : Int) ≤ maxIterations + 1 := by
  have hb := getMandelbrot_bounds cReal cImaginary maxIterations
  rw [max_eq_left h] at hb
  refine ⟨(getMandelbrot cReal cImaginary maxIterations).toNat,
    (getMandelbrot cReal cImaginary maxIterations).toNat + 1, ?_, by omega, rfl, by omega,
    by omega⟩
  rw [getMandelbrot.loopCounted_eq cReal cImaginary maxIterations (maxIterations - 0).toNat
    0 0 0 0 0 rfl]
  unfold getMandelbrot
  simp

/-- C14, at the point `c = 3` with cap 10. -/
theorem getMandelbrot_loop_terminates_witness :
    (0 : Int) ≤ 10 ∧ ∃ passes tests : Nat,
      getMandelbrot.loopCounted (3 : ℚ) 0 10 0 0 0 0 0 = (getMandelbrot (3 : ℚ) 0 10, passes, tests) ∧
      (passes : Int) = getMandelbrot (3 : ℚ) 0 10 ∧
      tests = passes + 1 ∧
      (passes : Int) ≤ 10 ∧ (tests : Int) ≤ 10 + 1 :=
  ⟨by decide, getMandelbrot_loop_terminates 3 0 10 (by decide)⟩

/-- C15: for every point and all caps `0 <= m <= m2`,
`getMandelbrot(a, b, m) = min(m, getMandelbrot(a, b, m2))`; so the result does
not decrease when the cap is raised, and a result `n < m` stays `n` under every
larger cap. -/
theorem getMandelbrot_cap_monotone {D : Type} [Zero D] [Add D] [Sub D] [Mul D] [OfNat D 2]
    [OfNat D 4] [LT D] [DecidableRel (fun (x y : D) => x < y)]
    (a b : D) (m m2 : Int) (h0 : 0 ≤ m) (hle : m ≤ m2) :
    getMandelbrot a b m = min m (getMandelbrot a b m2) ∧
      getMandelbrot a b m ≤ getMandelbrot a b m2 ∧
      (getMandelbrot a b m < m → getMandelbrot a b m2 = getMandelbrot a b m) := by
  have key : getMandelbrot a b m = min m (getMandelbrot a b m2) :=
    getMandelbrot.loop_min a b m m2 hle (m - 0).toNat 0 0 0 rfl h0
  refine ⟨key, ?_, ?_⟩
  · rw [key]
    exact min_le_right _ _
  · intro hlt
    rcases le_total m (getMandelbrot a b m2) with hc | hc
    · rw [key, min_eq_left hc] at hlt
      exact absurd hlt (lt_irrefl _)
    · rw [key, min_eq_right hc]

/-- C15, at the point `c = 3` with caps 5 and 10. -/
theorem getMandelbrot_cap_monotone_witness :
    (0 : Int) ≤ 5 ∧ (5 : Int) ≤ 10 ∧
      (getMandelbrot (3 : ℚ) 0 5 = min 5 (getMandelbrot (3 : ℚ) 0 10) ∧
      getMandelbrot (3 : ℚ) 0 5 ≤ getMandelbrot (3 : ℚ) 0 10 ∧
      (getMandelbrot (3 : ℚ) 0 5 < 5 → getMandelbrot (3 : ℚ) 0 10 = getMandelbrot (3 : ℚ) 0 5)) :=
  ⟨by decide, by decide, getMandelbrot_cap_monotone 3 0 5 10 (by decide) (by decide)⟩

/-- C16: in exact arithmetic, for every integer `size > 0` and every `lo < hi`,
each index with `0 <= index < size` is mapped into the viewport,
`lo <= mapToReal(index, size, lo, hi) < hi`, and `mapToReal` is strictly
increasing in the index; the same holds for `mapToImaginary`. -/
theorem mapTo_inside_increasing (size : Int) (lo hi : K) (hsize : 0 < size) (hlt : lo < hi) :
    (∀ index : Int, 0 ≤ index → index < size →
        (lo ≤ mapToReal index size lo hi ∧ mapToReal index size lo hi < hi) ∧
        (lo ≤ mapToImaginary index size lo hi ∧ mapToImaginary index size lo hi < hi)) ∧
      (∀ i j : Int, i < j →
        mapToReal i size lo hi < mapToReal j size lo hi ∧
        mapToImaginary i size lo hi < mapToImaginary j size lo hi) := by
  constructor
  · intro index h0 h1
    have h := mapToReal_inside size lo hi hsize hlt index h0 h1
    exact ⟨h, by rw [mapToImaginary_eq_mapToReal]; exact h⟩
  · intro i j hij
    have h := mapToReal_strictMono size lo hi hsize hlt i j hij
    exact ⟨h, by rw [mapToImaginary_eq_mapToReal, mapToImaginary_eq_mapToReal]; exact h⟩

/-- C16, for `size = 4` on the viewport `[-2, 1)`. -/
theorem mapTo_inside_increasing_witness :
    (0 : Int) < 4 ∧ (-2 : ℚ) < 1 ∧
      ((∀ index : Int, 0 ≤ index → index < 4 →
        ((-2 : ℚ) ≤ mapToReal index 4 (-2 : ℚ) 1 ∧ mapToReal index 4 (-2 : ℚ) 1 < 1) ∧
        ((-2 : ℚ) ≤ mapToImaginary index 4 (-2 : ℚ) 1 ∧ mapToImaginary index 4 (-2 : ℚ) 1 < 1)) ∧
      (∀ i j : Int, i < j →
        mapToReal i 4 (-2 : ℚ) 1 < mapToReal j 4 (-2 : ℚ) 1 ∧
        mapToImaginary i 4 (-2 : ℚ) 1 < mapToImaginary j 4 (-2 : ℚ) 1)) :=
  ⟨by decide, by norm_num, mapTo_inside_increasing 4 (-2 : ℚ) 1 (by decide) (by norm_num)⟩

/-- C17: in exact arithmetic, for every `a`, `b` and every cap,
`getMandelbrot(a, -b, maxIterations) = getMandelbrot(a, b, maxIterations)`. -/
theorem getMandelbrot_mirror (a b : K) (maxIterations : Int) :
    getMandelbrot a (-b) maxIterations = getMandelbrot a b maxIterations :=
  getMandelbrot_conj a b maxIterations

/-- C18: for every point and every cap, `getMandelbrot` returns 0 exactly when
`maxIterations <= 0`; for `maxIterations >= 1` the result is at least 1; and for
a negative cap the result 0 is not a value in `[0, maxIterations]`. -/
theorem getMandelbrot_zero_iff (cReal cImaginary : K) (maxIterations : Int) :
    (getMandelbrot cReal cImaginary maxIterations = 0 ↔ maxIterations ≤ 0) ∧
      (1 ≤ maxIterations → 1 ≤ getMandelbrot cReal cImaginary maxIterations) ∧
      (maxIterations < 0 → getMandelbrot cReal cImaginary maxIterations = 0 ∧
        ¬ (0 ≤ getMandelbrot cReal cImaginary maxIterations ∧
          getMandelbrot cReal cImaginary maxIterations ≤ maxIterations)) := by
  have hiff := getMandelbrot_eq_zero_iff_of_test cReal cImaginary maxIterations (by norm_num)
  have hnn := (getMandelbrot_bounds cReal cImaginary maxIterations).1
  refine ⟨hiff, ?_, ?_⟩
  · intro h1
    have hne : getMandelbrot cReal cImaginary maxIterations ≠ 0 := fun h0 => by
      have := hiff.mp h0
      omega
    omega
  · intro hneg
    have h0 := hiff.mpr (by omega)
    exact ⟨h0, fun hc => by omega⟩

/-- C11: whenever the parameter file opens, the text `main` writes to the image
file is the three header lines `P3`, `imageWidth imageHeight` (decimal, one
space between) and `255`, each ended by a newline, followed by the pixel text of
the output loop and nothing before it. -/
theorem main_header {D : Type} [Zero D] [Add D] [Sub D] [Mul D] [Div D] [IntCast D]
    [OfNat D 2] [OfNat D 4] [LT D] [DecidableRel (fun (x y : D) => x < y)]
    (heap : Int → pixelData) (fs : Files D) (p : Params D) (h : fs.parameters = some p) :
    (main heap fs).files.fractal
      = some ("P3" ++ "\n" ++ toString p.imageWidth ++ " " ++ toString p.imageHeight ++ "\n"
          ++ "255" ++ "\n"
          ++ String.join ((outputTriples p.imageWidth p.imageHeight (renderLoop p heap)).map
              showTriple)) := by
  rw [main_of_opened heap fs p h]
  rfl

/-- C11, for the parameter file `4 2 10` / `-2.0 1.0 -1.0 1.0`: the image file
begins `P3\n4 2\n255\n`. -/
theorem main_header_witness :
    (⟨some ⟨4, 2, 10, -2, 1, -1, 1⟩, none⟩ : Files ℚ).parameters = some ⟨4, 2, 10, -2, 1, -1, 1⟩ ∧
      (main (fun _ => (0, 0, 0)) (⟨some ⟨4, 2, 10, -2, 1, -1, 1⟩, none⟩ : Files ℚ)).files.fractal
        = some ("P3\n4 2\n255\n"
          ++ String.join ((outputTriples 4 2
              (renderLoop (⟨4, 2, 10, -2, 1, -1, 1⟩ : Params ℚ) (fun _ => (0, 0, 0)))).map
              showTriple)) :=
  ⟨rfl, main_header (fun _ => (0, 0, 0)) (⟨some ⟨4, 2, 10, -2, 1, -1, 1⟩, none⟩ : Files ℚ)
    ⟨4, 2, 10, -2, 1, -1, 1⟩ rfl⟩

/-- C12 fails on the parameters `65536 65537 2` / `0 1 0 196611`: the index
expression `y*imageWidth + x` leaves the `int` range, the positions `(x, y) =
(0, 0)` (count 2) and `(0, 65536)` (count 1) store to the same slot 0, and the
content of slot 0 depends on the order: `(1, 2, 4)` after the sequential loop,
`(2, 4, 8)` after an order of the same positions that handles `(0, 0)` last. -/
theorem renderInOrder_order_dependent (heap : Int → pixelData) :
    ∃ order : List (Int × Int), order.Perm (loopPositions 65536 65537) ∧
      renderLoop (⟨65536, 65537, 2, 0, 1, 0, 196611⟩ : Params ℚ) heap 0 = (1, 2, 4) ∧
      renderInOrder (⟨65536, 65537, 2, 0, 1, 0, 196611⟩ : Params ℚ) order heap 0
        = (2, 4, 8) := by
  have hfirst : pixelCount (⟨65536, 65537, 2, 0, 1, 0, 196611⟩ : Params ℚ) 0 0 = 2 := by
    have hc : mapToReal 0 65536 (0 : ℚ) 1 = 0 := by norm_num [mapToReal]
    have hd : mapToImaginary 0 65537 (0 : ℚ) 196611 = 0 := by norm_num [mapToImaginary]
    show getMandelbrot (mapToReal 0 65536 (0 : ℚ) 1) (mapToImaginary 0 65537 (0 : ℚ) 196611) 2 = 2
    rw [hc, hd]
    exact getMandelbrot_origin_of_nonneg 2 (by decide)
  have hlast : pixelCount (⟨65536, 65537, 2, 0, 1, 0, 196611⟩ : Params ℚ) 65536 0 = 1 := by
    have hc : mapToReal 0 65536 (0 : ℚ) 1 = 0 := by norm_num [mapToReal]
    have hd : mapToImaginary 65536 65537 (0 : ℚ) 196611 = 196608 := by
      norm_num [mapToImaginary]
    show getMandelbrot (mapToReal 0 65536 (0 : ℚ) 1)
      (mapToImaginary 65536 65537 (0 : ℚ) 196611) 2 = 1
    rw [hc, hd]
    have h1 := getMandelbrot_le_one_of_outside (0 : ℚ) 196608 2 (by norm_num)
    have h2 := getMandelbrot_eq_zero_iff_of_test (0 : ℚ) 196608 2 (by norm_num)
    have h3 := (getMandelbrot_bounds (0 : ℚ) 196608 2).1
    have h4 : getMandelbrot (0 : ℚ) 196608 2 ≠ 0 := fun h0 => absurd (h2.mp h0) (by decide)
    omega
  have hmem : ((0 : Int), (0 : Int)) ∈ loopPositions 65536 65537 :=
    (mem_loopPositions 65536 65537 (0, 0)).mpr (by decide)
  obtain ⟨front, back, hfb⟩ := List.append_of_mem hmem
  have hperm : (front ++ back ++ [((0 : Int), (0 : Int))]).Perm (loopPositions 65536 65537) := by
    rw [hfb]
    exact (List.perm_append_singleton _ _).trans List.perm_middle.symm
  refine ⟨front ++ back ++ [((0 : Int), (0 : Int))], hperm, ?_, ?_⟩
  · have hsplit : loopPositions 65536 65537
        = loopPositions 65536 65536 ++ ((65536 : Int), (0 : Int))
          :: (List.range 65535).map (fun (x : Nat) => ((65536 : Int), ((x + 1 : Nat) : Int))) :=
      loopPositions_last_row 65535 65536
    have hstore := renderInOrder_last_store (⟨65536, 65537, 2, 0, 1, 0, 196611⟩ : Params ℚ)
      (loopPositions 65536 65536)
      ((List.range 65535).map (fun (x : Nat) => ((65536 : Int), ((x + 1 : Nat) : Int))))
      ((65536 : Int), (0 : Int)) heap (by
        intro q hq
        obtain ⟨x, hx, rfl⟩ := List.mem_map.mp hq
        have hx1 := List.mem_range.mp hx
        show slotIndex 65536 65536 ((x + 1 : Nat) : Int) ≠ slotIndex 65536 65536 0
        unfold slotIndex wrapInt32
        push_cast
        omega)
    have hslot : slotIndex 65536 65536 0 = 0 := by decide
    show renderInOrder (⟨65536, 65537, 2, 0, 1, 0, 196611⟩ : Params ℚ)
      (loopPositions 65536 65537) heap 0 = (1, 2, 4)
    rw [hsplit]
    have hstore2 : renderInOrder (⟨65536, 65537, 2, 0, 1, 0, 196611⟩ : Params ℚ)
        (loopPositions 65536 65536 ++ ((65536 : Int), (0 : Int))
          :: (List.range 65535).map (fun (x : Nat) => ((65536 : Int), ((x + 1 : Nat) : Int))))
        heap (slotIndex 65536 65536 0)
        = pixelColour (pixelCount (⟨65536, 65537, 2, 0, 1, 0, 196611⟩ : Params ℚ) 65536 0) :=
      hstore
    rw [hslot, hlast] at hstore2
    rw [hstore2]
    decide
  · have hstore := renderInOrder_last_store (⟨65536, 65537, 2, 0, 1, 0, 196611⟩ : Params ℚ)
      (front ++ back) [] ((0 : Int), (0 : Int)) heap
      (fun q hq => absurd hq (List.not_mem_nil q))
    have hslot : slotIndex 0 65536 0 = 0 := by decide
    have hstore2 : renderInOrder (⟨65536, 65537, 2, 0, 1, 0, 196611⟩ : Params ℚ)
        (front ++ back ++ [((0 : Int), (0 : Int))])
        heap (slotIndex 0 65536 0)
        = pixelColour (pixelCount (⟨65536, 65537, 2, 0, 1, 0, 196611⟩ : Params ℚ) 0 0) :=
      hstore
    rw [hslot, hfirst] at hstore2
    rw [hstore2]
    decide

/-- C13 fails on an image of 65536 by 32769 pixels: for the position
`(x, y) = (0, 32768)`, which the render loop visits, the index expression
`y*imageWidth + x` leaves the `int` range and is -2147483648, a slot outside the
buffer `0 .. imageWidth*imageHeight - 1`. -/
theorem slotIndex_leaves_buffer :
    ((32768 : Int), (0 : Int)) ∈ loopPositions 65536 32769 ∧
      slotIndex 32768 65536 0 = -2147483648 ∧
      ¬ (0 ≤ slotIndex 32768 65536 0 ∧ slotIndex 32768 65536 0 < 65536 * 32769) :=
  ⟨(mem_loopPositions 65536 32769 (32768, 0)).mpr (by decide), by decide, by decide⟩

end Claims

end Mandelbrot
